import Mathlib

/-!
Verification of the shell-quoting engine of `src/bfstd.c` (`wordesc`/`wordnesc`
and their helpers) against its natural-language specification.

Modelling conventions (shallow embedding):

* A byte is a `Nat` (values are `< 256` for real inputs; nothing here depends
  on an upper bound).  A C string is a `List Nat` holding the bytes *before*
  its NUL terminator; reading at or past the end of the list models reading
  the terminator, so `List.getD _ _ 0` mirrors a C read of `str[j]`.
* The caller-supplied output region `[dest, end)` is modelled with `dest` at
  address `0` and `end = c` (the capacity).  Memory is a total function
  `Nat → Nat`; a writer state `St` is the pair (memory, write position).
* The locale-dependent collaborators (`isprint`, `iswprint`, `mbrtowc`, ...)
  are external to this code; they are a parameter `CLocale` of the embedding.
  `mbrtowc` receives the abstract shift state (a `Nat`, `0` = initial state)
  and the remaining bytes it may examine, exactly the window the C call
  passes.
* The C loops whose progress depends on the (external) decoder are embedded
  with an explicit fuel argument; the fuel supplied at every call site is
  large enough whenever the decoder makes progress (which libc guarantees),
  and the buffer/ideal-output pairs of definitions always share the same
  fuel, so all bridging theorems hold for every `CLocale`.
* `enum wesc_flags` is not declared in the sources provided (the header
  predates `wordesc`); the code only ever tests the single bit `WESC_SHELL`,
  so the flavor is embedded as a `Bool` (`true` = shell flavor).
-/

/-- Write one byte at one address. -/
def setByte (m : Nat → Nat) (a v : Nat) : Nat → Nat :=
  fun x => if x = a then v else m x

/-- Write a list of bytes at consecutive addresses (C `memcpy` into the
buffer). -/
def store : (Nat → Nat) → Nat → List Nat → (Nat → Nat)
  | m, _, [] => m
  | m, a, b :: bs => store (setByte m a b) (a + 1) bs

/-- A bounded-writer state: the memory and the current write position
(`dest`); the capacity `end = c` is passed separately. -/
abbrev St := (Nat → Nat) × Nat

/-- C `strnlen(src, n)`: number of bytes before the first NUL, capped at `n`;
the end of the list is the terminator. -/
def cstrnlen : List Nat → Nat → Nat
  | [], _ => 0
  | _ :: _, 0 => 0
  | b :: bs, n + 1 => if b = 0 then 0 else cstrnlen bs n + 1

/-- Index of the first NUL byte of a list (its length when none): the value
of C `strlen`. -/
def nulIdx : List Nat → Nat
  | [] => 0
  | b :: bs => if b = 0 then 0 else nulIdx bs + 1

/-- C `strcspn(s, stop)`: length of the prefix containing no byte of `stop`
and no NUL. -/
def cstrcspn (stop : List Nat) : List Nat → Nat
  | [] => 0
  | b :: bs => if b = 0 ∨ stop.contains b then 0 else cstrcspn stop bs + 1

/-- Length of the leading run of `'` bytes, capped at `len` (the inner
`while (len > 0 && *str == '\'')` loop of `single_quote`). -/
def countQ : List Nat → Nat → Nat
  | [], _ => 0
  | _ :: _, 0 => 0
  | b :: bs, l + 1 => if b = 39 then countQ bs l + 1 else 0

/-- Function `xstpencpy(dest, end, src, n)` from bfstd.c: copy at most
`min(end - dest, n)` bytes of `src` up to its NUL, then either terminate after
the copy (fits) or force a terminator at `end - 1` and pin the cursor at
`end`. -/
def xstpencpy (c : Nat) (st : St) (src : List Nat) (n : Nat) : St :=
  let space := c - st.2
  let n2 := cstrnlen src (min space n)
  if n2 < space then
    (setByte (store st.1 st.2 (src.take n2)) (st.2 + n2) 0, st.2 + n2)
  else
    (setByte (store st.1 st.2 (src.take n2)) (c - 1) 0, c)

/-- Function `xstpecpy(dest, end, src) = xstpencpy(dest, end, src, SIZE_MAX)`.  The
bound enters only through `min(space, n)` and `space = c - dest ≤ c ≤
SIZE_MAX`, so passing `c` is equivalent to passing `SIZE_MAX`. -/
def xstpecpy (c : Nat) (st : St) (src : List Nat) : St :=
  xstpencpy c st src c

/-- Result of one `mbrtowc` call by the platform decoder: a decoded
character (code point, bytes consumed, new shift state), an invalid
sequence (-1), or an incomplete sequence at the end of the window (-2). -/
inductive MbRes where
  | ok (wc : Nat) (mblen : Nat) (st : Nat)
  | invalid
  | incomplete
deriving Repr, DecidableEq

/-- The locale-dependent collaborators of the quoting engine. `mbrtowc`
takes the current shift state and the byte window `str + i .. str + len`. -/
structure CLocale where
  isprint : Nat → Bool
  isspace : Nat → Bool
  iswprint : Nat → Bool
  iswspace : Nat → Bool
  mbrtowc : Nat → List Nat → MbRes

/-- Function `xmbrtowc(&wc, &i, str, len, &mb)` from bfstd.c.  Returns (decoded char
if any, new offset, new shift state).  Note the faithful embedding of the
incomplete case: the source does `*i += len` (not `*i = len`). -/
def xmbrtowc (L : CLocale) (s : List Nat) (len i mb : Nat) : Option Nat × Nat × Nat :=
  match L.mbrtowc mb ((s.drop i).take (len - i)) with
  | .ok wc mblen st => (some wc, i + mblen, st)
  | .invalid => (none, i + 1, 0)
  | .incomplete => (none, i + len, mb)

/-- C `isascii`. -/
def isasciiB (b : Nat) : Bool := b < 128

/-- Function `xisprint` from bfstd.c: printable, or (outside shell flavor) byte-level
whitespace. -/
def xisprint (L : CLocale) (shell : Bool) (b : Nat) : Bool :=
  L.isprint b || (!shell && L.isspace b)

/-- Function `xiswprint` from bfstd.c: the wide-character version of `xisprint`. -/
def xiswprint (L : CLocale) (shell : Bool) (w : Nat) : Bool :=
  L.iswprint w || (!shell && L.iswspace w)

/-- Fast (ASCII) loop of `printable_len`: starting at offset `i` with
`fuel = len - i` steps remaining, return `.inl i` for the C `return i`
(unprintable ASCII byte) and `.inr i` for falling through to the multibyte
loop (non-ASCII byte, or `i = len`). -/
def pfastAux (L : CLocale) (shell : Bool) (s : List Nat) : Nat → Nat → Nat ⊕ Nat
  | 0, i => Sum.inr i
  | fuel + 1, i =>
    let b := s.getD i 0
    if !isasciiB b then Sum.inr i
    else if !xisprint L shell b then Sum.inl i
    else pfastAux L shell s fuel (i + 1)

/-- Multibyte loop of `printable_len`.  On a decode error or an unprintable
character the C code breaks *after* `xmbrtowc` already advanced `i`, so the
offending character is included in the returned count. -/
def pmbAux (L : CLocale) (shell : Bool) (s : List Nat) (len : Nat) : Nat → Nat → Nat → Nat
  | 0, i, _ => i
  | fuel + 1, i, mb =>
    if i < len then
      match xmbrtowc L s len i mb with
      | (none, i2, _) => i2
      | (some wc, i2, mb2) => if xiswprint L shell wc then pmbAux L shell s len fuel i2 mb2 else i2
    else i

/-- Function `printable_len(str, len, flags)` from bfstd.c. -/
def printable_len (L : CLocale) (shell : Bool) (s : List Nat) (len : Nat) : Nat :=
  match pfastAux L shell s len 0 with
  | Sum.inl i => i
  | Sum.inr i => pmbAux L shell s len len i 0

/-- Function `dollar_esc(c)` from bfstd.c: the named ANSI-C escape of a byte, if any
(as the bytes of the two-character escape). -/
def dollar_esc (b : Nat) : Option (List Nat) :=
  if b = 7 then some [92, 97]
  else if b = 8 then some [92, 98]
  else if b = 27 then some [92, 101]
  else if b = 12 then some [92, 102]
  else if b = 10 then some [92, 110]
  else if b = 13 then some [92, 114]
  else if b = 9 then some [92, 116]
  else if b = 11 then some [92, 118]
  else if b = 39 then some [92, 39]
  else if b = 92 then some [92, 92]
  else none

/-- Uppercase hexadecimal digit, as in the `hex` table of `dollar_quote`. -/
def hexDig (n : Nat) : Nat := if n < 10 then 48 + n else 55 + n

/-- What the emission of one escaped byte appends to the output: the named
escape, or `\xHH` with two uppercase digits. -/
def escOut (b : Nat) : List Nat :=
  match dollar_esc b with
  | some e => e
  | none => [92, 120, hexDig (b / 16), hexDig (b % 16)]

/-- Buffer-writing form of the escaped-byte emission of `dollar_quote`:
one `xstpecpy` for a named escape, else three (`"\x"`, high digit, low
digit). -/
def escWrite (c : Nat) (st : St) (b : Nat) : St :=
  match dollar_esc b with
  | some e => xstpecpy c st e
  | none => xstpecpy c (xstpecpy c (xstpecpy c st [92, 120]) [hexDig (b / 16)]) [hexDig (b % 16)]

/-- The bytes `str[i] .. str[i+k-1]` as the C loop `for (j = start; j < i;)`
reads them (reads past the list model the NUL terminator). -/
def mbBytes (s : List Nat) (i k : Nat) : List Nat :=
  (List.range k).map (fun d => s.getD (i + d) 0)

/-- Main loop of `dollar_quote`, buffer-writing form.  One iteration decodes
one character (or error unit), decides `safe`, and either copies the raw
bytes or escapes them byte by byte. -/
def dqBuf (L : CLocale) (shell : Bool) (c : Nat) (s : List Nat) (len : Nat) :
    Nat → St → Nat → Nat → St
  | 0, st, _, _ => st
  | fuel + 1, st, i, mb =>
    if i < len then
      let r := xmbrtowc L s len i mb
      let k := r.2.1 - i
      let bytes := mbBytes s i k
      let safe := (match r.1 with
        | some wc => xiswprint L shell wc
        | none => false) && !(bytes.any (fun b => b == 39 || b == 92))
      let st2 := if safe then xstpencpy c st (s.drop i) k else bytes.foldl (escWrite c) st
      dqBuf L shell c s len fuel st2 r.2.1 r.2.2
    else st

/-- Main loop of `dollar_quote`, ideal-output form (the bytes an unbounded
buffer would receive); shares every control decision with `dqBuf`. -/
def dqOut (L : CLocale) (shell : Bool) (s : List Nat) (len : Nat) :
    Nat → Nat → Nat → List Nat
  | 0, _, _ => []
  | fuel + 1, i, mb =>
    if i < len then
      let r := xmbrtowc L s len i mb
      let k := r.2.1 - i
      let bytes := mbBytes s i k
      let safe := (match r.1 with
        | some wc => xiswprint L shell wc
        | none => false) && !(bytes.any (fun b => b == 39 || b == 92))
      let ch := if safe then (s.drop i).take (cstrnlen (s.drop i) k)
        else bytes.foldr (fun b acc => escOut b ++ acc) []
      ch ++ dqOut L shell s len fuel r.2.1 r.2.2
    else []

/-- Function `dollar_quote(dest, end, str, len, flags)` from bfstd.c. -/
def dollar_quote (L : CLocale) (shell : Bool) (c : Nat) (st : St) (s : List Nat) (len : Nat) : St :=
  xstpecpy c (dqBuf L shell c s len (len + 1) (xstpecpy c st [36, 39]) 0 0) [39]

/-- Ideal output of `dollar_quote`. -/
def dollarOut (L : CLocale) (shell : Bool) (s : List Nat) (len : Nat) : List Nat :=
  [36, 39] ++ dqOut L shell s len (len + 1) 0 0 ++ [39]

/-- The bare-word-unsafe byte set, exactly the bytes of the string literal in
`bare_len` of bfstd.c: note the two bytes `0xCB 0x9C` — the literal contains
U+02DC SMALL TILDE, not ASCII `~` (0x7E). -/
def bareUnsafe : List Nat :=
  [124, 38, 59, 60, 62, 40, 41, 36, 96, 92, 34, 39, 32, 42, 63, 91, 35, 203, 156, 61, 37, 33]

/-- Function `bare_len(str, len)` from bfstd.c. -/
def bare_len (s : List Nat) (len : Nat) : Nat :=
  min (cstrcspn bareUnsafe s) len

/-- The double-quote-unsafe byte set of `quotable_len`: `` ` $ \ " ! ``. -/
def quotableUnsafe : List Nat := [96, 36, 92, 34, 33]

/-- Function `quotable_len(str, len)` from bfstd.c. -/
def quotable_len (s : List Nat) (len : Nat) : Nat :=
  min (cstrcspn quotableUnsafe s) len

/-- Function `double_quote(dest, end, str, len)` from bfstd.c. -/
def double_quote (c : Nat) (st : St) (s : List Nat) (len : Nat) : St :=
  xstpecpy c (xstpencpy c (xstpecpy c st [34]) s len) [34]

/-- Ideal output of `double_quote`. -/
def doubleOut (s : List Nat) (len : Nat) : List Nat :=
  [34] ++ s.take (cstrnlen s len) ++ [34]

/-- The bytes of `q` consecutive `\'` escapes. -/
def qesc : Nat → List Nat
  | 0 => []
  | q + 1 => 92 :: 39 :: qesc q

/-- Write `q` consecutive `\'` escapes. -/
def qfold (c : Nat) : Nat → St → St
  | 0, st => st
  | q + 1, st => qfold c q (xstpecpy c st [92, 39])

/-- Outer loop of `single_quote`, buffer-writing form: one iteration emits
the longest quote-free chunk (opening a `'...'` run if needed) and then the
following run of literal `'` bytes as `\'` escapes (closing the run first).
Returns the state and the `open` flag. -/
def sqLoopBuf (c : Nat) : Nat → St → List Nat → Nat → Bool → St × Bool
  | 0, st, _, _, op => (st, op)
  | fuel + 1, st, s, len, op =>
    if len = 0 then (st, op)
    else
      let chunk := min (cstrcspn [39] s) len
      let st1 := if 0 < chunk then xstpencpy c (if op then st else xstpecpy c st [39]) s chunk else st
      let op1 := if 0 < chunk then true else op
      let q := countQ (s.drop chunk) (len - chunk)
      let st2 := if 0 < q then qfold c q (if op1 then xstpecpy c st1 [39] else st1) else st1
      sqLoopBuf c fuel st2 (s.drop (chunk + q)) (len - (chunk + q)) (if 0 < q then false else op1)

/-- Outer loop of `single_quote`, pure form: the ideal output bytes, the
final `open` flag, and whether the loop reached its `len = 0` exit within
the given fuel (termination marker). -/
def sqSpec : Nat → List Nat → Nat → Bool → List Nat × Bool × Bool
  | 0, _, len, op => ([], op, len == 0)
  | fuel + 1, s, len, op =>
    if len = 0 then ([], op, true)
    else
      let chunk := min (cstrcspn [39] s) len
      let part1 := if 0 < chunk then (if op then [] else [39]) ++ s.take (cstrnlen s chunk) else []
      let op1 := if 0 < chunk then true else op
      let q := countQ (s.drop chunk) (len - chunk)
      let part2 := if 0 < q then (if op1 then [39] else []) ++ qesc q else []
      let r := sqSpec fuel (s.drop (chunk + q)) (len - (chunk + q)) (if 0 < q then false else op1)
      (part1 ++ part2 ++ r.1, r.2)

/-- Function `single_quote(dest, end, str, len)` from bfstd.c (the trailing close of
an open `'...'` run included). -/
def single_quote (c : Nat) (st : St) (s : List Nat) (len : Nat) : St :=
  let r := sqLoopBuf c (len + 1) st s len false
  if r.2 then xstpecpy c r.1 [39] else r.1

/-- Ideal output of `single_quote`. -/
def singleOut (s : List Nat) (len : Nat) : List Nat :=
  let p := sqSpec (len + 1) s len false
  p.1 ++ (if p.2.1 then [39] else [])

/-- The four quoting strategies of the engine. -/
inductive Strategy where
  | bare | dquote | squote | dollar
deriving Repr, DecidableEq

/-- The strategy `wordnesc` dispatches to, read off from its `if` chain. -/
def wordnescStrategy (L : CLocale) (shell : Bool) (s : List Nat) (n : Nat) : Strategy :=
  let len := cstrnlen s n
  if printable_len L shell s len < len then .dollar
  else if !shell || (bare_len s len == len) then .bare
  else if quotable_len s len == len then .dquote
  else .squote

/-- Function `wordnesc(dest, end, str, n, flags)` from bfstd.c: compute
`len = strnlen(str, n)`, dispatch to exactly one emitter, and repair an
empty emission to `""`. -/
def wordnesc (L : CLocale) (shell : Bool) (c : Nat) (st : St) (s : List Nat) (n : Nat) : St :=
  let len := cstrnlen s n
  let d := if printable_len L shell s len < len then dollar_quote L shell c st s len
    else if !shell || (bare_len s len == len) then xstpencpy c st s len
    else if quotable_len s len == len then double_quote c st s len
    else single_quote c st s len
  if d.2 = st.2 then xstpecpy c d [34, 34] else d

/-- Ideal output of `wordnesc`: the bytes an unbounded buffer would
receive. -/
def wordnescOut (L : CLocale) (shell : Bool) (s : List Nat) (n : Nat) : List Nat :=
  let len := cstrnlen s n
  let o := if printable_len L shell s len < len then dollarOut L shell s len
    else if !shell || (bare_len s len == len) then s.take (cstrnlen s len)
    else if quotable_len s len == len then doubleOut s len
    else singleOut s len
  if o.length = 0 then [34, 34] else o

/-- Dispatch form of the ideal output, phrased through `wordnescStrategy` as
the specification describes the selection. -/
def dispatchOut (L : CLocale) (shell : Bool) (s : List Nat) (n : Nat) : List Nat :=
  let len := cstrnlen s n
  let o := match wordnescStrategy L shell s n with
    | .dollar => dollarOut L shell s len
    | .bare => s.take (cstrnlen s len)
    | .dquote => doubleOut s len
    | .squote => singleOut s len
  if o.length = 0 then [34, 34] else o

/-- Dispatch form of the buffer run, phrased through `wordnescStrategy`. -/
def dispatchBuf (L : CLocale) (shell : Bool) (c : Nat) (st : St) (s : List Nat) (n : Nat) : St :=
  let len := cstrnlen s n
  let d := match wordnescStrategy L shell s n with
    | .dollar => dollar_quote L shell c st s len
    | .bare => xstpencpy c st s len
    | .dquote => double_quote c st s len
    | .squote => single_quote c st s len
  if d.2 = st.2 then xstpecpy c d [34, 34] else d

/-- A concrete locale used to evaluate the model on specific inputs: ASCII
printability (bytes 32..126) and a UTF-8-style decoder for one- and
two-byte sequences.  It stands in for the platform collaborators when a
claim is checked at a concrete input. -/
def asciiL : CLocale where
  isprint := fun b => decide (32 ≤ b ∧ b ≤ 126)
  isspace := fun b => decide (b = 32 ∨ (9 ≤ b ∧ b ≤ 13))
  iswprint := fun w => decide (32 ≤ w ∧ w ≤ 126)
  iswspace := fun w => decide (w = 32 ∨ (9 ≤ w ∧ w ≤ 13))
  mbrtowc := fun _ bs =>
    match bs with
    | [] => .incomplete
    | b :: rest =>
      if b = 0 then .ok 0 0 0
      else if b < 128 then .ok b 1 0
      else if 194 ≤ b ∧ b ≤ 223 then
        match rest with
        | [] => .incomplete
        | b2 :: _ => if 128 ≤ b2 ∧ b2 ≤ 191 then .ok ((b - 194) * 64 + (b2 - 128) + 128) 2 0
          else .invalid
      else .invalid

/-- The bare-word-unsafe byte set as the specification lists it, with an
ASCII tilde (0x7E); a reference definition following the claim's words, to
be compared with `bareUnsafe` from the source. -/
def specBareUnsafe : List Nat :=
  [124, 38, 59, 60, 62, 40, 41, 36, 96, 92, 34, 39, 32, 42, 63, 91, 35, 126, 61, 37, 33]

/-- Reference definition following the claim's words: the length of the
longest prefix of the first `len` bytes containing no byte of the
spec-listed unsafe set. -/
def specBareLen (s : List Nat) (len : Nat) : Nat :=
  ((s.take len).takeWhile (fun b => !(specBareUnsafe.contains b))).length

/-- Reference model of a POSIX single-quoting reader, following the claim's
description: outside a quoted run only `'` (opening a run) and the
two-character escape `\'` (a literal quote) are accepted; inside a run every
byte except the closing `'` is literal; an input ending inside a run is
rejected (`none`).  Returns the decoded bytes. -/
def sqRead : Bool → List Nat → Option (List Nat)
  | false, [] => some []
  | true, [] => none
  | false, b :: r =>
    if b = 39 then sqRead true r
    else if b = 92 then
      match r with
      | [] => none
      | b2 :: r2 => if b2 = 39 then Option.map (fun t => 39 :: t) (sqRead false r2) else none
    else none
  | true, b :: r =>
    if b = 39 then sqRead false r
    else Option.map (fun t => b :: t) (sqRead true r)

/-- Reference model of the tilde-expansion step the claim's POSIX word
parser applies to an unquoted bare word: a leading `~` is replaced by the
home directory. -/
def posixTildeExpand (home w : List Nat) : List Nat :=
  match w with
  | 126 :: rest => home ++ rest
  | _ => w

/-- Relation tying one bounded-buffer computation to the bytes it would
append to an unbounded buffer: final position `min (pos + out.length) c`,
no byte at or beyond `c` touched, and (unless nothing ran) a NUL terminator
somewhere inside `[0, c)`. -/
def Ladv (c : Nat) (st st2 : St) (out : List Nat) : Prop :=
  st2.2 = min (st.2 + out.length) c ∧
  (∀ a, c ≤ a → st2.1 a = st.1 a) ∧
  (st2 = st ∨ ∃ k, k < c ∧ st2.1 k = 0)

theorem cstrnlen_eq_min (s : List Nat) : ∀ n, cstrnlen s n = min n (nulIdx s) := by
  induction s with
  | nil => intro n; simp [cstrnlen, nulIdx]
  | cons b bs ih =>
    intro n
    cases n with
    | zero => simp [cstrnlen]
    | succ n =>
      by_cases hb : b = 0
      · simp [cstrnlen, nulIdx, hb]
      · simp [cstrnlen, nulIdx, hb, ih, Nat.succ_min_succ]

theorem nulIdx_le_length (s : List Nat) : nulIdx s ≤ s.length := by
  induction s with
  | nil => simp [nulIdx]
  | cons b bs ih =>
    simp only [nulIdx, List.length_cons]
    by_cases hb : b = 0
    · rw [if_pos hb]; omega
    · rw [if_neg hb]; omega

theorem cstrnlen_le (s : List Nat) (n : Nat) : cstrnlen s n ≤ n := by
  rw [cstrnlen_eq_min]; omega

theorem cstrnlen_le_length (s : List Nat) (n : Nat) : cstrnlen s n ≤ s.length := by
  rw [cstrnlen_eq_min]
  have := nulIdx_le_length s
  omega

theorem take_mem_of_le {s : List Nat} {m k : Nat} (h : m ≤ k) {b : Nat}
    (hb : b ∈ s.take m) : b ∈ s.take k := by
  have : s.take m = (s.take k).take m := by
    rw [List.take_take, Nat.min_eq_left h]
  rw [this] at hb
  exact List.take_subset _ _ hb

theorem nulIdx_take_ne (s : List Nat) : ∀ b ∈ s.take (nulIdx s), b ≠ 0 := by
  induction s with
  | nil => simp [nulIdx]
  | cons a as ih =>
    by_cases ha : a = 0
    · simp [nulIdx, ha]
    · intro b hb
      simp only [nulIdx, ha, if_false, List.take_succ_cons, List.mem_cons] at hb
      rcases hb with hb | hb
      · omega
      · exact ih b hb

theorem cstrnlen_no_nul (s : List Nat) (n : Nat) : ∀ b ∈ s.take (cstrnlen s n), b ≠ 0 := by
  intro b hb
  rw [cstrnlen_eq_min] at hb
  exact nulIdx_take_ne s b (take_mem_of_le (Nat.min_le_right _ _) hb)

theorem nulIdx_ge (s : List Nat) (n : Nat) (hlen : n ≤ s.length)
    (hnn : ∀ b ∈ s.take n, b ≠ 0) : n ≤ nulIdx s := by
  induction s generalizing n with
  | nil => simp at hlen; omega
  | cons a as ih =>
    cases n with
    | zero => omega
    | succ n =>
      have ha : a ≠ 0 := hnn a (by simp)
      have : n ≤ nulIdx as := by
        refine ih n (by simp at hlen; omega) ?_
        intro b hb
        exact hnn b (by simp [hb])
      simp [nulIdx, ha]
      omega

theorem cstrnlen_of_no_nul (s : List Nat) (n : Nat) (hlen : n ≤ s.length)
    (hnn : ∀ b ∈ s.take n, b ≠ 0) : cstrnlen s n = n := by
  rw [cstrnlen_eq_min]
  have := nulIdx_ge s n hlen hnn
  omega

theorem cstrnlen_nil (n : Nat) : cstrnlen [] n = 0 := by
  rw [cstrnlen_eq_min]; simp [nulIdx]

theorem cstrcspn_le_length (stop s : List Nat) : cstrcspn stop s ≤ s.length := by
  induction s with
  | nil => simp [cstrcspn]
  | cons b bs ih =>
    simp only [cstrcspn, List.length_cons]
    by_cases hb : b = 0 ∨ stop.contains b
    · rw [if_pos hb]; omega
    · rw [if_neg hb]; omega

theorem cstrcspn_take (stop s : List Nat) :
    ∀ b ∈ s.take (cstrcspn stop s), b ≠ 0 ∧ stop.contains b = false := by
  induction s with
  | nil => simp [cstrcspn]
  | cons a as ih =>
    simp only [cstrcspn]
    by_cases ha : a = 0 ∨ stop.contains a
    · rw [if_pos ha]
      simp
    · rw [if_neg ha]
      intro b hb
      rw [List.take_succ_cons, List.mem_cons] at hb
      rcases hb with hb | hb
      · subst hb
        constructor
        · intro h0; exact ha (Or.inl h0)
        · rcases Bool.eq_false_or_eq_true (stop.contains b) with h | h
          · exact absurd (Or.inr h) ha
          · exact h
      · exact ih b hb

theorem countQ_le (s : List Nat) : ∀ l, countQ s l ≤ l := by
  induction s with
  | nil => intro l; simp [countQ]
  | cons b bs ih =>
    intro l
    cases l with
    | zero => simp [countQ]
    | succ l =>
      simp only [countQ]
      by_cases hb : b = 39
      · rw [if_pos hb]
        have := ih l
        omega
      · rw [if_neg hb]
        omega

theorem countQ_le_length (s : List Nat) (l : Nat) : countQ s l ≤ s.length := by
  induction s generalizing l with
  | nil => simp [countQ]
  | cons b bs ih =>
    cases l with
    | zero => simp [countQ]
    | succ l =>
      simp only [countQ, List.length_cons]
      by_cases hb : b = 39
      · rw [if_pos hb]
        have := ih (l := l)
        omega
      · rw [if_neg hb]
        omega

theorem countQ_take (s : List Nat) : ∀ l, s.take (countQ s l) = List.replicate (countQ s l) 39 := by
  induction s with
  | nil => intro l; simp [countQ]
  | cons b bs ih =>
    intro l
    cases l with
    | zero => simp [countQ]
    | succ l =>
      by_cases hb : b = 39
      · simp [countQ, hb, List.replicate_succ, ih l]
      · simp [countQ, hb]

theorem store_out : ∀ (l : List Nat) (m : Nat → Nat) (a x : Nat),
    (x < a ∨ a + l.length ≤ x) → store m a l x = m x := by
  intro l
  induction l with
  | nil => intro m a x _; rfl
  | cons b bs ih =>
    intro m a x hx
    simp only [store]
    rw [ih]
    · simp only [setByte]
      rw [if_neg]
      simp at hx
      omega
    · simp at hx ⊢
      omega

theorem nulIdx_eq_length (s : List Nat) (hnn : ∀ b ∈ s, b ≠ 0) : nulIdx s = s.length :=
  Nat.le_antisymm (nulIdx_le_length s) (nulIdx_ge s s.length le_rfl (by simpa using hnn))

theorem Ladv_pos_le {c : Nat} {st st2 : St} {out : List Nat} (h : Ladv c st st2 out) :
    st2.2 ≤ c := by
  rw [h.1]; omega

theorem Ladv_refl {c : Nat} {st : St} (h : st.2 ≤ c) : Ladv c st st [] :=
  ⟨by simp; omega, fun _ _ => rfl, Or.inl rfl⟩

theorem Ladv_comp {c : Nat} {st st1 st2 : St} {u v : List Nat}
    (h1 : Ladv c st st1 u) (h2 : Ladv c st1 st2 v) : Ladv c st st2 (u ++ v) := by
  obtain ⟨p1, o1, t1⟩ := h1
  obtain ⟨p2, o2, t2⟩ := h2
  refine ⟨?_, ?_, ?_⟩
  · rw [p2, p1, List.length_append]
    omega
  · intro a ha
    rw [o2 a ha, o1 a ha]
  · rcases t2 with t2 | t2
    · rw [t2]; exact t1
    · exact Or.inr t2

theorem xstpencpy_ladv (c : Nat) (st : St) (src : List Nat) (n : Nat) (hc : 1 ≤ c)
    (hp : st.2 ≤ c) : Ladv c st (xstpencpy c st src n) (src.take (cstrnlen src n)) := by
  obtain ⟨m, pos⟩ := st
  simp only [Prod.fst, Prod.snd] at hp
  have hmin : cstrnlen src (min (c - pos) n) = min (c - pos) (cstrnlen src n) := by
    rw [cstrnlen_eq_min, cstrnlen_eq_min]
    omega
  have htl : cstrnlen src n ≤ src.length := cstrnlen_le_length src n
  have hlen_take : (src.take (cstrnlen src n)).length = cstrnlen src n := by
    rw [List.length_take]; omega
  simp only [xstpencpy, Ladv, hmin]
  set t := cstrnlen src n with ht
  have hlen_take2 : (src.take (min (c - pos) t)).length ≤ min (c - pos) t := by
    rw [List.length_take]; omega
  by_cases hf : min (c - pos) t < c - pos
  · rw [if_pos hf]
    refine ⟨?_, ?_, ?_⟩
    · simp only [hlen_take]
      omega
    · intro a ha
      simp only [setByte]
      rw [if_neg (by omega)]
      exact store_out _ _ _ _ (by omega)
    · exact Or.inr ⟨pos + min (c - pos) t, by omega, by simp [setByte]⟩
  · rw [if_neg hf]
    refine ⟨?_, ?_, ?_⟩
    · simp only [hlen_take]
      omega
    · intro a ha
      simp only [setByte]
      rw [if_neg (by omega)]
      exact store_out _ _ _ _ (by omega)
    · exact Or.inr ⟨c - 1, by omega, by simp [setByte]⟩

theorem xstpecpy_ladv (c : Nat) (st : St) (src : List Nat) (hc : 1 ≤ c) (hp : st.2 ≤ c)
    (hnn : ∀ b ∈ src, b ≠ 0) : Ladv c st (xstpecpy c st src) src := by
  have hnul : cstrnlen src c = min c src.length := by
    rw [cstrnlen_eq_min, nulIdx_eq_length src hnn]
  have h := xstpencpy_ladv c st src c hc hp
  rw [hnul] at h
  obtain ⟨h1, h2, h3⟩ := h
  refine ⟨?_, h2, h3⟩
  show (xstpencpy c st src c).2 = min (st.2 + src.length) c
  rw [h1, List.length_take]
  omega

theorem hexDig_ne (n : Nat) : hexDig n ≠ 0 := by
  unfold hexDig; split_ifs <;> omega

set_option maxHeartbeats 1000000 in
theorem dollar_esc_no_nul (b : Nat) (e : List Nat) (he : dollar_esc b = some e) :
    ∀ x ∈ e, x ≠ 0 := by
  unfold dollar_esc at he
  split_ifs at he <;>
    (simp only [Option.some.injEq] at he
     subst he
     intro x hx
     simp only [List.mem_cons, List.not_mem_nil, or_false] at hx
     rcases hx with h | h <;> omega)

theorem escOut_no_nul (b : Nat) : ∀ x ∈ escOut b, x ≠ 0 := by
  unfold escOut
  cases h : dollar_esc b with
  | none =>
    intro x hx
    simp only [List.mem_cons, List.mem_singleton] at hx
    rcases hx with hx | hx | hx | hx
    · omega
    · omega
    · rw [hx]; exact hexDig_ne _
    · simp at hx
      rw [hx]; exact hexDig_ne _
  | some e => exact dollar_esc_no_nul b e h

theorem escWrite_ladv (c : Nat) (st : St) (b : Nat) (hc : 1 ≤ c) (hp : st.2 ≤ c) :
    Ladv c st (escWrite c st b) (escOut b) := by
  unfold escWrite escOut
  cases h : dollar_esc b with
  | none =>
    have l1 := xstpecpy_ladv c st [92, 120] hc hp (by decide)
    have l2 := xstpecpy_ladv c _ [hexDig (b / 16)] hc (Ladv_pos_le l1)
      (by intro x hx; simp at hx; rw [hx]; exact hexDig_ne _)
    have l3 := xstpecpy_ladv c _ [hexDig (b % 16)] hc (Ladv_pos_le (Ladv_comp l1 l2))
      (by intro x hx; simp at hx; rw [hx]; exact hexDig_ne _)
    have := Ladv_comp (Ladv_comp l1 l2) l3
    simpa using this
  | some e => exact xstpecpy_ladv c st e hc hp (dollar_esc_no_nul b e h)

theorem escFold_ladv (c : Nat) (hc : 1 ≤ c) : ∀ (bytes : List Nat) (st : St), st.2 ≤ c →
    Ladv c st (bytes.foldl (escWrite c) st) (bytes.foldr (fun b acc => escOut b ++ acc) []) := by
  intro bytes
  induction bytes with
  | nil => intro st hp; exact Ladv_refl hp
  | cons b bs ih =>
    intro st hp
    simp only [List.foldl_cons, List.foldr_cons]
    have h1 := escWrite_ladv c st b hc hp
    exact Ladv_comp h1 (ih (escWrite c st b) (Ladv_pos_le h1))

theorem dqBuf_ladv (L : CLocale) (shell : Bool) (c : Nat) (s : List Nat) (len : Nat)
    (hc : 1 ≤ c) : ∀ fuel i mb (st : St), st.2 ≤ c →
    Ladv c st (dqBuf L shell c s len fuel st i mb) (dqOut L shell s len fuel i mb) := by
  intro fuel
  induction fuel with
  | zero => intro i mb st hp; exact Ladv_refl hp
  | succ fuel ih =>
    intro i mb st hp
    simp only [dqBuf, dqOut]
    by_cases hi : i < len
    · rw [if_pos hi, if_pos hi]
      by_cases hs : ((match (xmbrtowc L s len i mb).1 with
          | some wc => xiswprint L shell wc
          | none => false) &&
          !((mbBytes s i ((xmbrtowc L s len i mb).2.1 - i)).any (fun b => b == 39 || b == 92))) = true
      · rw [if_pos hs, if_pos hs]
        have h1 := xstpencpy_ladv c st (s.drop i) ((xmbrtowc L s len i mb).2.1 - i) hc hp
        exact Ladv_comp h1 (ih _ _ _ (Ladv_pos_le h1))
      · rw [if_neg hs, if_neg hs]
        have h1 := escFold_ladv c hc (mbBytes s i ((xmbrtowc L s len i mb).2.1 - i)) st hp
        exact Ladv_comp h1 (ih _ _ _ (Ladv_pos_le h1))
    · rw [if_neg hi, if_neg hi]
      exact Ladv_refl hp

theorem dollar_quote_ladv (L : CLocale) (shell : Bool) (c : Nat) (st : St) (s : List Nat)
    (len : Nat) (hc : 1 ≤ c) (hp : st.2 ≤ c) :
    Ladv c st (dollar_quote L shell c st s len) (dollarOut L shell s len) := by
  unfold dollar_quote dollarOut
  have l1 := xstpecpy_ladv c st [36, 39] hc hp (by decide)
  have l2 := dqBuf_ladv L shell c s len hc (len + 1) 0 0 _ (Ladv_pos_le l1)
  have l3 := xstpecpy_ladv c _ [39] hc (Ladv_pos_le (Ladv_comp l1 l2)) (by decide)
  have := Ladv_comp (Ladv_comp l1 l2) l3
  simpa using this

theorem double_quote_ladv (c : Nat) (st : St) (s : List Nat) (len : Nat)
    (hc : 1 ≤ c) (hp : st.2 ≤ c) :
    Ladv c st (double_quote c st s len) (doubleOut s len) := by
  unfold double_quote doubleOut
  have l1 := xstpecpy_ladv c st [34] hc hp (by decide)
  have l2 := xstpencpy_ladv c _ s len hc (Ladv_pos_le l1)
  have l3 := xstpecpy_ladv c _ [34] hc (Ladv_pos_le (Ladv_comp l1 l2)) (by decide)
  have := Ladv_comp (Ladv_comp l1 l2) l3
  simpa using this

theorem qfold_ladv (c : Nat) (hc : 1 ≤ c) : ∀ (q : Nat) (st : St), st.2 ≤ c →
    Ladv c st (qfold c q st) (qesc q) := by
  intro q
  induction q with
  | zero => intro st hp; exact Ladv_refl hp
  | succ q ih =>
    intro st hp
    simp only [qfold, qesc]
    have h1 := xstpecpy_ladv c st [92, 39] hc hp (by decide)
    have := Ladv_comp h1 (ih _ (Ladv_pos_le h1))
    simpa using this

theorem sqLoopBuf_ladv (c : Nat) (hc : 1 ≤ c) : ∀ fuel (s : List Nat) (len : Nat) (op : Bool)
    (st : St), st.2 ≤ c →
    Ladv c st (sqLoopBuf c fuel st s len op).1 (sqSpec fuel s len op).1 ∧
    (sqLoopBuf c fuel st s len op).2 = (sqSpec fuel s len op).2.1 := by
  intro fuel
  induction fuel with
  | zero => intro s len op st hp; exact ⟨Ladv_refl hp, rfl⟩
  | succ fuel ih =>
    intro s len op st hp
    simp only [sqLoopBuf, sqSpec]
    by_cases h0 : len = 0
    · rw [if_pos h0, if_pos h0]
      exact ⟨Ladv_refl hp, rfl⟩
    · rw [if_neg h0, if_neg h0]
      have hst1 : Ladv c st
          (if 0 < min (cstrcspn [39] s) len then
            xstpencpy c (if op then st else xstpecpy c st [39]) s (min (cstrcspn [39] s) len)
          else st)
          (if 0 < min (cstrcspn [39] s) len then
            (if op then [] else [39]) ++ s.take (cstrnlen s (min (cstrcspn [39] s) len))
          else []) := by
        by_cases hch : 0 < min (cstrcspn [39] s) len
        · rw [if_pos hch, if_pos hch]
          cases op with
          | true =>
            have h1 := xstpencpy_ladv c st s (min (cstrcspn [39] s) len) hc hp
            simpa using h1
          | false =>
            have h1 := xstpecpy_ladv c st [39] hc hp (by decide)
            have h2 := xstpencpy_ladv c _ s (min (cstrcspn [39] s) len) hc (Ladv_pos_le h1)
            simpa using Ladv_comp h1 h2
        · rw [if_neg hch, if_neg hch]
          exact Ladv_refl hp
      set st1 := (if 0 < min (cstrcspn [39] s) len then
        xstpencpy c (if op then st else xstpecpy c st [39]) s (min (cstrcspn [39] s) len)
        else st) with hst1def
      set op1 := (if 0 < min (cstrcspn [39] s) len then true else op) with hop1
      set q := countQ (s.drop (min (cstrcspn [39] s) len)) (len - min (cstrcspn [39] s) len)
        with hq
      have hst2 : Ladv c st1
          (if 0 < q then qfold c q (if op1 then xstpecpy c st1 [39] else st1) else st1)
          (if 0 < q then (if op1 then [39] else []) ++ qesc q else []) := by
        by_cases hqq : 0 < q
        · rw [if_pos hqq, if_pos hqq]
          cases op1 with
          | true =>
            have h1 := xstpecpy_ladv c st1 [39] hc (Ladv_pos_le hst1) (by decide)
            have h2 := qfold_ladv c hc q _ (Ladv_pos_le h1)
            simpa using Ladv_comp h1 h2
          | false =>
            have h2 := qfold_ladv c hc q st1 (Ladv_pos_le hst1)
            simpa using h2
        · rw [if_neg hqq, if_neg hqq]
          exact Ladv_refl (Ladv_pos_le hst1)
      set st2 := (if 0 < q then qfold c q (if op1 then xstpecpy c st1 [39] else st1) else st1)
        with hst2def
      have hrec := ih (s.drop (min (cstrcspn [39] s) len + q))
        (len - (min (cstrcspn [39] s) len + q)) (if 0 < q then false else op1) st2
        (Ladv_pos_le hst2)
      refine ⟨?_, hrec.2⟩
      have := Ladv_comp (Ladv_comp hst1 hst2) hrec.1
      simpa [List.append_assoc] using this

theorem xstpencpy_term (c : Nat) (st : St) (src : List Nat) (n : Nat) (hc : 1 ≤ c) :
    ∃ k, k < c ∧ (xstpencpy c st src n).1 k = 0 := by
  obtain ⟨m, pos⟩ := st
  simp only [xstpencpy]
  by_cases hf : cstrnlen src (min (c - pos) n) < c - pos
  · rw [if_pos hf]
    exact ⟨pos + cstrnlen src (min (c - pos) n), by omega, by simp [setByte]⟩
  · rw [if_neg hf]
    exact ⟨c - 1, by omega, by simp [setByte]⟩

theorem wordnesc_ladv (L : CLocale) (shell : Bool) (c : Nat) (m : Nat → Nat) (s : List Nat)
    (n : Nat) (hc : 1 ≤ c) :
    Ladv c (m, 0) (wordnesc L shell c (m, 0) s n) (wordnescOut L shell s n) ∧
    ∃ k, k < c ∧ (wordnesc L shell c (m, 0) s n).1 k = 0 := by
  have hp : (m, 0).2 ≤ c := by simp
  have hbr : ∀ (d : St) (o : List Nat), Ladv c (m, 0) d o →
      Ladv c (m, 0) (if d.2 = (m, 0).2 then xstpecpy c d [34, 34] else d)
        (if o.length = 0 then [34, 34] else o) ∧
      ∃ k, k < c ∧ (if d.2 = (m, 0).2 then xstpecpy c d [34, 34] else d).1 k = 0 := by
    intro d o hdo
    by_cases ho : o.length = 0
    · have hd2 : d.2 = 0 := by
        have h := hdo.1
        rw [ho] at h
        simpa using h
      rw [if_pos (by simpa using hd2), if_pos ho]
      have h2 := xstpecpy_ladv c d [34, 34] hc (by omega) (by decide)
      have h3 := Ladv_comp hdo h2
      have ho2 : o = [] := List.length_eq_zero.mp ho
      refine ⟨by simpa [ho2] using h3, ?_⟩
      exact xstpencpy_term c d [34, 34] c hc
    · have hd2 : d.2 ≠ 0 := by
        have h : d.2 = min o.length c := by simpa using hdo.1
        omega
      rw [if_neg (by simpa using hd2), if_neg ho]
      refine ⟨hdo, ?_⟩
      rcases hdo.2.2 with h | h
      · rw [h] at hd2
        simp at hd2
      · exact h
  simp only [wordnesc, wordnescOut]
  by_cases h1 : printable_len L shell s (cstrnlen s n) < cstrnlen s n
  · rw [if_pos h1, if_pos h1]
    exact hbr _ _ (dollar_quote_ladv L shell c (m, 0) s (cstrnlen s n) hc hp)
  · rw [if_neg h1, if_neg h1]
    by_cases h2 : (!shell || (bare_len s (cstrnlen s n) == cstrnlen s n)) = true
    · rw [if_pos h2, if_pos h2]
      exact hbr _ _ (xstpencpy_ladv c (m, 0) s (cstrnlen s n) hc hp)
    · rw [if_neg h2, if_neg h2]
      by_cases h3 : (quotable_len s (cstrnlen s n) == cstrnlen s n) = true
      · rw [if_pos h3, if_pos h3]
        exact hbr _ _ (double_quote_ladv c (m, 0) s (cstrnlen s n) hc hp)
      · rw [if_neg h3, if_neg h3]
        have h4 := sqLoopBuf_ladv c hc (cstrnlen s n + 1) s (cstrnlen s n) false (m, 0) hp
        have h5 : Ladv c (m, 0) (single_quote c (m, 0) s (cstrnlen s n))
            (singleOut s (cstrnlen s n)) := by
          simp only [single_quote, singleOut]
          by_cases hop :
              (sqLoopBuf c (cstrnlen s n + 1) (m, 0) s (cstrnlen s n) false).2 = true
          · rw [if_pos hop, if_pos (h4.2.symm.trans hop)]
            have h6 := xstpecpy_ladv c _ [39] hc (Ladv_pos_le h4.1) (by decide)
            exact Ladv_comp h4.1 h6
          · rw [if_neg hop, if_neg (fun hx => hop (h4.2.trans hx))]
            simpa using h4.1
        exact hbr _ _ h5

/-- Claim C3: for every output region of capacity `c ≥ 1` and every locale,
input, bound and flavor, `wordnesc` writes only inside `[dest, end)`, leaves
a NUL terminator inside that range, and returns a cursor between `dest` and
`end`; and every `xstpencpy` call (at any in-range position) does the
same. -/
theorem wordnesc_truncation_safe (L : CLocale) (shell : Bool) (s : List Nat) (n c : Nat)
    (m : Nat → Nat) (hc : 1 ≤ c) :
    (wordnesc L shell c (m, 0) s n).2 ≤ c ∧
    (∀ a, c ≤ a → (wordnesc L shell c (m, 0) s n).1 a = m a) ∧
    (∃ k, k < c ∧ (wordnesc L shell c (m, 0) s n).1 k = 0) ∧
    (∀ (m2 : Nat → Nat) (pos : Nat) (src : List Nat) (nn : Nat), pos ≤ c →
      (xstpencpy c (m2, pos) src nn).2 ≤ c ∧
      (∀ a, c ≤ a → (xstpencpy c (m2, pos) src nn).1 a = m2 a) ∧
      ∃ k, k < c ∧ (xstpencpy c (m2, pos) src nn).1 k = 0) := by
  obtain ⟨hl, hterm⟩ := wordnesc_ladv L shell c m s n hc
  refine ⟨Ladv_pos_le hl, hl.2.1, hterm, ?_⟩
  intro m2 pos src nn hpos
  have h := xstpencpy_ladv c (m2, pos) src nn hc hpos
  exact ⟨Ladv_pos_le h, h.2.1, xstpencpy_term c (m2, pos) src nn hc⟩

theorem wordnesc_truncation_safe_witness :
    (wordnesc asciiL true 2 (fun _ => 55, 0) [104, 105] 9).2 ≤ 2 ∧
    (wordnesc asciiL true 2 (fun _ => 55, 0) [104, 105] 9).1 7 = 55 ∧
    ∃ k, k < 2 ∧ (wordnesc asciiL true 2 (fun _ => 55, 0) [104, 105] 9).1 k = 0 :=
  ⟨(wordnesc_truncation_safe asciiL true [104, 105] 9 2 (fun _ => 55) (by decide)).1,
   (wordnesc_truncation_safe asciiL true [104, 105] 9 2 (fun _ => 55) (by decide)).2.1 7
     (by decide),
   (wordnesc_truncation_safe asciiL true [104, 105] 9 2 (fun _ => 55) (by decide)).2.2.1⟩

/-- Claim C6 (amended): `wordnesc` returns the cursor advanced by
`min(unbounded output length, capacity)` — a pointer to the new NUL
terminator, pinned at `end` on truncation — not the unbounded byte count
itself. -/
theorem wordnesc_pos_min (L : CLocale) (shell : Bool) (s : List Nat) (n c : Nat)
    (m : Nat → Nat) (hc : 1 ≤ c) :
    (wordnesc L shell c (m, 0) s n).2 = min (wordnescOut L shell s n).length c := by
  have h := (wordnesc_ladv L shell c m s n hc).1.1
  simpa using h

theorem wordnesc_pos_min_witness :
    (wordnesc asciiL true 2 (fun _ => 0, 0) [97, 98, 99] 4).2 =
      min (wordnescOut asciiL true [97, 98, 99] 4).length 2 :=
  wordnesc_pos_min asciiL true [97, 98, 99] 4 2 (fun _ => 0) (by decide)

/-- Claim C6 (counterexample to the claim as stated): with capacity 2 and
input `abc`, the returned cursor is `dest + 2`, while the number of logical
bytes that would have been written is 3 — the return value is not that
count. -/
theorem wordnesc_ret_not_total_len :
    (wordnesc asciiL true 2 (fun _ => 0, 0) [97, 98, 99] 4).2 = 2 ∧
    (wordnescOut asciiL true [97, 98, 99] 4).length = 3 ∧ (2 : Nat) ≠ 3 := by
  refine ⟨by decide, by decide, by decide⟩

/-- Claim C9: for every locale, flavor and bound, quoting the empty string
produces exactly the two bytes `""`, never zero output bytes. -/
theorem wordnesc_empty_quotes (L : CLocale) (shell : Bool) (n : Nat) :
    wordnescOut L shell [] n = [34, 34] ∧ (wordnescOut L shell [] n).length = 2 := by
  have h : wordnescOut L shell [] n = [34, 34] := by
    have hlen : cstrnlen [] n = 0 := cstrnlen_nil n
    simp [wordnescOut, hlen, printable_len, pfastAux, pmbAux, bare_len, cstrcspn]
  exact ⟨h, by rw [h]; rfl⟩

/-- Claim C1 (code bug): under shell flavor the input `~` is emitted as the
bare, unquoted word `~` (because the source's unsafe set contains U+02DC,
not ASCII `~`), and the claim's POSIX word parser tilde-expands an unquoted
`~` to the home directory, so parsing the output does not give back the
input. -/
theorem wordnesc_tilde_roundtrip_bug :
    wordnescOut asciiL true [126] 1 = [126] ∧
    posixTildeExpand [47, 114] (wordnescOut asciiL true [126] 1) = [47, 114] ∧
    [47, 114] ≠ [126] := by
  refine ⟨by decide, by decide, by decide⟩

/-- Claim C4 (code bug): `bare_len` accepts ASCII `~` (0x7E) as bare-safe
and instead rejects the byte 0xCB, because the reject-set literal holds
U+02DC SMALL TILDE (bytes 0xCB 0x9C) where the spec lists ASCII `~`; the
spec-side reference scan stops at `~`. -/
theorem bare_len_tilde_bug :
    bare_len [126] 1 = 1 ∧ specBareLen [126] 1 = 0 ∧ bare_len [203] 1 = 0 := by
  refine ⟨by decide, by decide, by decide⟩

/-- Claim C5 (code bug): on an incomplete sequence `xmbrtowc` does
`*i += len` instead of `*i = len`: at offset 1 of the two-byte input
`61 C3` it reports the new offset 3, past `len = 2`, where the claim
requires exactly `len`. -/
theorem xmbrtowc_incomplete_overshoot :
    xmbrtowc asciiL [97, 195] 2 1 0 = (none, 3, 0) ∧ ¬(3 ≤ 2) := by
  refine ⟨by decide, by decide⟩

/-- Claim C7 (code bug): on input bytes `01 C3` (an unprintable byte
followed by an incomplete sequence) the dollar-quote emitter, driven past
`len` by the `xmbrtowc` overshoot, also escapes the NUL terminator byte it
reads beyond the input, emitting `$'\x01\xC3\x00'` where the claimed
per-byte encoding is `$'\x01\xC3'`. -/
theorem dollar_quote_overread_bug :
    dollarOut asciiL true [1, 195] 2 =
      [36, 39, 92, 120, 48, 49, 92, 120, 67, 51, 92, 120, 48, 48, 39] ∧
    dollarOut asciiL true [1, 195] 2 ≠ [36, 39, 92, 120, 48, 49, 92, 120, 67, 51, 39] := by
  refine ⟨by decide, by decide⟩

/-- Claim C2: with `len = strnlen(str, n)`, `wordnesc` uses exactly one
emitter, chosen in order: DollarQuoted iff `printable_len < len`; otherwise
Bare iff the flavor is not shell or `bare_len = len`; otherwise DoubleQuoted
iff `quotable_len = len`; otherwise SingleQuoted — both the ideal output and
the buffer run factor through this selection. -/
theorem wordnesc_strategy_selection (L : CLocale) (shell : Bool) (s : List Nat) (n : Nat) :
    (wordnescStrategy L shell s n = Strategy.dollar ↔
      printable_len L shell s (cstrnlen s n) < cstrnlen s n) ∧
    (wordnescStrategy L shell s n = Strategy.bare ↔
      ¬printable_len L shell s (cstrnlen s n) < cstrnlen s n ∧
      (shell = false ∨ bare_len s (cstrnlen s n) = cstrnlen s n)) ∧
    (wordnescStrategy L shell s n = Strategy.dquote ↔
      ¬printable_len L shell s (cstrnlen s n) < cstrnlen s n ∧
      ¬(shell = false ∨ bare_len s (cstrnlen s n) = cstrnlen s n) ∧
      quotable_len s (cstrnlen s n) = cstrnlen s n) ∧
    (wordnescStrategy L shell s n = Strategy.squote ↔
      ¬printable_len L shell s (cstrnlen s n) < cstrnlen s n ∧
      ¬(shell = false ∨ bare_len s (cstrnlen s n) = cstrnlen s n) ∧
      ¬quotable_len s (cstrnlen s n) = cstrnlen s n) ∧
    wordnescOut L shell s n = dispatchOut L shell s n ∧
    ∀ c st, wordnesc L shell c st s n = dispatchBuf L shell c st s n := by
  have hb : ((!shell || (bare_len s (cstrnlen s n) == cstrnlen s n)) = true) ↔
      (shell = false ∨ bare_len s (cstrnlen s n) = cstrnlen s n) := by
    simp
  have hq : ((quotable_len s (cstrnlen s n) == cstrnlen s n) = true) ↔
      quotable_len s (cstrnlen s n) = cstrnlen s n := by
    simp
  simp only [wordnescStrategy, wordnescOut, dispatchOut, wordnesc, dispatchBuf]
  by_cases h1 : printable_len L shell s (cstrnlen s n) < cstrnlen s n
  · simp [h1]
  · by_cases h2 : (!shell || (bare_len s (cstrnlen s n) == cstrnlen s n)) = true
    · simp [h1, h2, hb.mp h2]
    · by_cases h3 : (quotable_len s (cstrnlen s n) == cstrnlen s n) = true
      · simp [h1, h2, h3, hq.mp h3, hb.not.mp h2]
      · simp [h1, h2, h3, hb.not.mp h2, hq.not.mp h3]

theorem sqRead_open (r : List Nat) : sqRead false (39 :: r) = sqRead true r := by
  cases r <;> simp [sqRead]

theorem sqRead_close (r : List Nat) : sqRead true (39 :: r) = sqRead false r := by
  cases r <;> simp [sqRead]

theorem sqRead_cons (b : Nat) (hb : b ≠ 39) (r : List Nat) :
    sqRead true (b :: r) = Option.map (fun t => b :: t) (sqRead true r) := by
  cases r <;> simp [sqRead, hb]

theorem sqRead_esc (r : List Nat) :
    sqRead false (92 :: 39 :: r) = Option.map (fun t => 39 :: t) (sqRead false r) := by
  simp [sqRead]

theorem sqRead_content : ∀ (u : List Nat) (r : List Nat), (∀ b ∈ u, b ≠ 39) →
    sqRead true (u ++ r) = Option.map (fun t => u ++ t) (sqRead true r) := by
  intro u
  induction u with
  | nil =>
    intro r _
    simp
  | cons b bs ih =>
    intro r hu
    have hb : b ≠ 39 := hu b (by simp)
    rw [List.cons_append, sqRead_cons b hb, ih r (fun x hx => hu x (by simp [hx])),
      Option.map_map]
    rfl

theorem sqRead_qesc : ∀ (q : Nat) (r : List Nat), sqRead false (qesc q ++ r) =
    Option.map (fun t => List.replicate q 39 ++ t) (sqRead false r) := by
  intro q
  induction q with
  | zero =>
    intro r
    simp [qesc]
  | succ q ih =>
    intro r
    show sqRead false (92 :: 39 :: (qesc q ++ r)) = _
    rw [sqRead_esc, ih r, Option.map_map, List.replicate_succ]
    rfl

theorem cstrcspn_zero (stop : List Nat) (s : List Nat) (h : cstrcspn stop s = 0) :
    s = [] ∨ ∃ b bs, s = b :: bs ∧ (b = 0 ∨ stop.contains b = true) := by
  cases s with
  | nil => exact Or.inl rfl
  | cons b bs =>
    right
    refine ⟨b, bs, rfl, ?_⟩
    by_contra hb
    simp only [cstrcspn] at h
    rw [if_neg (by exact fun hx => hb (by simpa using hx))] at h
    omega

theorem sq_progress (s : List Nat) (len : Nat) (h0 : len ≠ 0) (hlen : len ≤ s.length)
    (hnn : ∀ b ∈ s.take len, b ≠ 0) :
    1 ≤ min (cstrcspn [39] s) len +
      countQ (s.drop (min (cstrcspn [39] s) len)) (len - min (cstrcspn [39] s) len) := by
  by_cases hch : 0 < min (cstrcspn [39] s) len
  · omega
  · have hc0 : cstrcspn [39] s = 0 := by omega
    rcases cstrcspn_zero [39] s hc0 with hs | ⟨b, bs, hsbs, hb⟩
    · subst hs
      simp at hlen
      omega
    · have hmin0 : min (cstrcspn [39] s) len = 0 := by omega
      have hbmem : b ∈ s.take len := by
        subst hsbs
        cases len with
        | zero => omega
        | succ l => simp
      have hb39 : b = 39 := by
        rcases hb with hb | hb
        · exact absurd hb (hnn b hbmem)
        · simpa using hb
      rw [hmin0]
      subst hsbs
      simp only [List.drop_zero, Nat.sub_zero, Nat.zero_add]
      cases len with
      | zero => omega
      | succ l =>
        simp only [countQ, if_pos hb39]
        omega

theorem sqRead_run (op : Bool) (u X : List Nat) (hu : ∀ b ∈ u, b ≠ 39) :
    sqRead op (((if op then [] else [39]) ++ u) ++ X) =
      Option.map (fun t => u ++ t) (sqRead true X) := by
  cases op with
  | true =>
    show sqRead true (([] ++ u) ++ X) = _
    rw [List.nil_append]
    exact sqRead_content u X hu
  | false =>
    show sqRead false (39 :: (u ++ X)) = _
    rw [sqRead_open]
    exact sqRead_content u X hu

theorem sqRead_qrun (op1 : Bool) (q : Nat) (X : List Nat) :
    sqRead op1 (((if op1 then [39] else []) ++ qesc q) ++ X) =
      Option.map (fun t => List.replicate q 39 ++ t) (sqRead false X) := by
  cases op1 with
  | true =>
    show sqRead true (39 :: (qesc q ++ X)) = _
    rw [sqRead_close]
    exact sqRead_qesc q X
  | false =>
    show sqRead false ((([] : List Nat) ++ qesc q) ++ X) = _
    rw [List.nil_append]
    exact sqRead_qesc q X

theorem sq_decode_aux : ∀ (fuel : Nat) (s : List Nat) (len : Nat) (op : Bool) (rest : List Nat),
    len ≤ s.length → (∀ b ∈ s.take len, b ≠ 0) → len < fuel →
    sqRead op ((sqSpec fuel s len op).1 ++ rest) =
      Option.map (fun t => s.take len ++ t) (sqRead (sqSpec fuel s len op).2.1 rest) := by
  intro fuel
  induction fuel with
  | zero =>
    intro s len op rest _ _ hf
    omega
  | succ fuel ih =>
    intro s len op rest hlen hnn hf
    by_cases h0 : len = 0
    · subst h0
      simp [sqSpec]
    · have hprog := sq_progress s len h0 hlen hnn
      simp only [sqSpec, if_neg h0]
      set ch := min (cstrcspn [39] s) len with hch
      set q := countQ (s.drop ch) (len - ch) with hq
      have hch_le : ch ≤ len := by omega
      have hchc : ch ≤ cstrcspn [39] s := by omega
      have hq_le : q ≤ len - ch := by
        rw [hq]
        exact countQ_le _ _
      have hdata : cstrnlen s ch = ch :=
        cstrnlen_of_no_nul s ch (by omega) (fun b hb => hnn b (take_mem_of_le hch_le hb))
      have hno39 : ∀ b ∈ s.take ch, b ≠ 39 := by
        intro b hb hb39
        have hhh := cstrcspn_take [39] s b (take_mem_of_le hchc hb)
        rw [hb39] at hhh
        simp at hhh
      have hqtake : (s.drop ch).take q = List.replicate q 39 := by
        rw [hq]
        exact countQ_take (s.drop ch) (len - ch)
      have hdd : (s.drop ch).drop q = s.drop (ch + q) := by
        rw [List.drop_drop, Nat.add_comm]
      have hsplit : s.take len =
          s.take ch ++ (List.replicate q 39 ++ (s.drop (ch + q)).take (len - (ch + q))) := by
        conv_lhs => rw [show len = ch + (len - ch) by omega]
        rw [List.take_add]
        congr 1
        conv_lhs => rw [show len - ch = q + (len - ch - q) by omega]
        rw [List.take_add, hqtake, hdd, show len - ch - q = len - (ch + q) by omega]
      have hlen2 : len - (ch + q) ≤ (s.drop (ch + q)).length := by
        rw [List.length_drop]
        omega
      have hnn2 : ∀ b ∈ (s.drop (ch + q)).take (len - (ch + q)), b ≠ 0 := by
        intro b hb
        apply hnn
        rw [hsplit]
        simp [hb]
      have hf2 : len - (ch + q) < fuel := by omega
      rw [List.append_assoc, List.append_assoc]
      by_cases hc : 0 < ch
      · simp only [if_pos hc, hdata]
        by_cases hqq : 0 < q
        · simp only [if_pos hqq, if_true, List.singleton_append, List.cons_append, List.nil_append]
          rw [sqRead_run op (s.take ch) _ hno39]
          rw [sqRead_close, sqRead_qesc]
          rw [ih _ _ _ rest hlen2 hnn2 hf2, Option.map_map, Option.map_map]
          congr 1
          funext t
          simp only [Function.comp]
          rw [hsplit]
          simp [List.append_assoc]
        · simp only [if_neg hqq, List.nil_append]
          rw [sqRead_run op (s.take ch) _ hno39]
          rw [ih _ _ _ rest hlen2 hnn2 hf2, Option.map_map]
          have hq0 : q = 0 := by omega
          congr 1
          funext t
          simp only [Function.comp]
          rw [hsplit]
          simp [hq0, List.append_assoc]
      · have hch0 : ch = 0 := by omega
        have hqq : 0 < q := by omega
        simp only [if_neg hc, if_pos hqq, List.nil_append]
        rw [sqRead_qrun op q _]
        rw [ih _ _ _ rest hlen2 hnn2 hf2, Option.map_map]
        congr 1
        funext t
        simp only [Function.comp]
        rw [hsplit]
        simp [hch0, List.append_assoc]

theorem sq_done_aux : ∀ (fuel : Nat) (s : List Nat) (len : Nat) (op : Bool),
    len ≤ s.length → (∀ b ∈ s.take len, b ≠ 0) → len < fuel →
    (sqSpec fuel s len op).2.2 = true := by
  intro fuel
  induction fuel with
  | zero =>
    intro s len op _ _ hf
    omega
  | succ fuel ih =>
    intro s len op hlen hnn hf
    by_cases h0 : len = 0
    · simp [sqSpec, h0]
    · have hprog := sq_progress s len h0 hlen hnn
      simp only [sqSpec, if_neg h0]
      set ch := min (cstrcspn [39] s) len with hch
      set q := countQ (s.drop ch) (len - ch) with hq
      have hch_le : ch ≤ len := by omega
      have hq_le : q ≤ len - ch := by
        rw [hq]
        exact countQ_le _ _
      have hlen2 : len - (ch + q) ≤ (s.drop (ch + q)).length := by
        rw [List.length_drop]
        omega
      have hnn2 : ∀ b ∈ (s.drop (ch + q)).take (len - (ch + q)), b ≠ 0 := by
        intro b hb
        apply hnn
        have hmem : b ∈ s.drop (ch + q) := List.take_subset _ _ hb
        have hidx := List.mem_take_iff_getElem.mp hb
        obtain ⟨i, hi, hbi⟩ := hidx
        rw [List.getElem_drop] at hbi
        apply List.mem_take_iff_getElem.mpr
        exact ⟨ch + q + i, by omega, hbi⟩
      have hf2 : len - (ch + q) < fuel := by omega
      exact ih _ _ _ hlen2 hnn2 hf2

/-- Claim C8: for every input with no NUL among its first `len` bytes, the
SingleQuoted emitter's output is accepted by the POSIX single-quote reader
(which admits `'` bytes only as the `\'` escape outside a run, keeps all
runs balanced, and rejects a dangling open run) and decodes back to exactly
those bytes; in particular `it's` is rendered as `'it'\''s'`. -/
theorem single_quote_roundtrip :
    (∀ (s : List Nat) (len : Nat), len ≤ s.length → (∀ b ∈ s.take len, b ≠ 0) →
      sqRead false (singleOut s len) = some (s.take len)) ∧
    singleOut [105, 116, 39, 115] 4 = [39, 105, 116, 39, 92, 39, 39, 115, 39] := by
  constructor
  · intro s len hlen hnn
    show sqRead false ((sqSpec (len + 1) s len false).1 ++
      (if (sqSpec (len + 1) s len false).2.1 then [39] else [])) = some (s.take len)
    rw [sq_decode_aux (len + 1) s len false _ hlen hnn (by omega)]
    by_cases hop : (sqSpec (len + 1) s len false).2.1 = true
    · rw [if_pos hop, hop, sqRead_close]
      simp [sqRead]
    · rw [if_neg hop]
      rw [Bool.not_eq_true] at hop
      rw [hop]
      simp [sqRead]
  · decide

theorem single_quote_roundtrip_witness :
    sqRead false (singleOut [105, 116, 39, 115] 4) = some [105, 116, 39, 115] :=
  single_quote_roundtrip.1 [105, 116, 39, 115] 4 (by decide) (by decide)

/-- Claim C10: the `single_quote` outer loop terminates whenever none of the
first `len` bytes is NUL — with that precondition, `len + 1` rounds always
reach the `len = 0` exit (each round strictly decreases the remaining
length) — and the precondition holds at the only call site, because
`wordnesc` computes `len = strnlen(str, n)`, which never extends past the
first NUL byte. -/
theorem single_quote_terminates :
    (∀ (s : List Nat) (len : Nat) (op : Bool), len ≤ s.length →
      (∀ b ∈ s.take len, b ≠ 0) → (sqSpec (len + 1) s len op).2.2 = true) ∧
    (∀ (s : List Nat) (n : Nat), cstrnlen s n ≤ s.length ∧
      ∀ b ∈ s.take (cstrnlen s n), b ≠ 0) :=
  ⟨fun s len op h1 h2 => sq_done_aux (len + 1) s len op h1 h2 (by omega),
   fun s n => ⟨cstrnlen_le_length s n,
     fun b hb => cstrnlen_no_nul s n b hb⟩⟩

theorem single_quote_terminates_witness :
    (sqSpec 2 [97] 1 false).2.2 = true ∧ cstrnlen [104, 0, 106] 9 ≤ 3 :=
  ⟨single_quote_terminates.1 [97] 1 false (by decide) (by decide),
   (single_quote_terminates.2 [104, 0, 106] 9).1⟩
